import Mathlib

/-!
# Verification of the `chrono` hierarchical timing wheel

Shallow embedding of the core of the `kercylan98/chrono` repository:
the `Truncate` helper, the delay-queue priority queue, the executor,
the timer / bucket / wheel data model and the driver loop, translated
from the Go sources.  Go `int64` arithmetic is modelled by `Int`
(no operation below can overflow 64 bits on the inputs considered);
Go integer division and remainder truncate toward zero, which is
`Int.tdiv` / `Int.tmod`.
-/

namespace Chrono

/-- Milliseconds since the Unix epoch, a Go `int64`. -/
abbrev Ms := Int

/-- `Truncate` from `chrono.go`: truncates `x` to a multiple of `m` via
`x - x%m`; returns `x` unchanged when `m <= 0`.  Go `%` is the
truncated remainder, `Int.tmod`. -/
def Truncate (x m : Int) : Int :=
  if m ≤ 0 then x else x - Int.tmod x m

/-- C10: `Truncate(x, m)` returns `x` unchanged when `m <= 0`; when
`m > 0` and `x >= 0` the result `r` is the greatest multiple of `m`
not exceeding `x`: `r % m = 0` and `0 <= x - r < m`. -/
theorem Truncate_correct (x m : Int) :
    (m ≤ 0 → Truncate x m = x) ∧
    (0 < m → 0 ≤ x →
      Truncate x m % m = 0 ∧ 0 ≤ x - Truncate x m ∧ x - Truncate x m < m) := by
  constructor
  · intro h
    simp [Truncate, h]
  · intro hm hx
    have hm' : ¬ m ≤ 0 := not_le.mpr hm
    simp only [Truncate, if_neg hm']
    refine ⟨?_, ?_, ?_⟩
    · have h := Int.tdiv_add_tmod x m
      have hx' : x - Int.tmod x m = m * Int.tdiv x m := by linarith
      rw [hx']
      exact Int.mul_emod_right m _
    · have hsub : x - (x - Int.tmod x m) = Int.tmod x m := by ring
      rw [hsub]
      exact Int.tmod_nonneg m hx
    · have hsub : x - (x - Int.tmod x m) = Int.tmod x m := by ring
      rw [hsub]
      exact Int.tmod_lt_of_pos x hm

/-- Witness for C10 at `x = 7`, `m = 0` and `x = 7`, `m = 3`. -/
theorem Truncate_correct_witness :
    Truncate 7 0 = 7 ∧
      (Truncate 7 3 % 3 = 0 ∧ 0 ≤ 7 - Truncate 7 3 ∧ 7 - Truncate 7 3 < 3) :=
  ⟨(Truncate_correct 7 0).1 (by decide),
   (Truncate_correct 7 3).2 (by decide) (by decide)⟩

/-!
## PriorityQueue backing storage (`src/internal/delayqueue/priority_queue.go`)

The Go slice backing the min-heap is modelled as the stored items plus
the capacity of the backing array.  `Push` grows the backing array to
`cap*2` when `len+1 > cap` and appends at the end; `Pop` shrinks the
backing array to `cap/2` when `len < cap/2 && cap > 25` and removes the
last element (`container/heap` has already swapped the minimum there).
-/

/-- A Go slice of queue items: its contents and the backing capacity. -/
structure PQ (α : Type) where
  data : List α
  cap : Nat
  deriving Repr, DecidableEq

/-- `priorityQueue.Push`: grow the backing array by doubling when the
new length exceeds the capacity, then store the item at index `n`. -/
def pqPush {α : Type} (pq : PQ α) (x : α) : PQ α :=
  let n := pq.data.length
  let c := pq.cap
  if n + 1 > c then { data := pq.data ++ [x], cap := c * 2 }
  else { data := pq.data ++ [x], cap := c }

/-- `priorityQueue.Pop`: shrink the backing array by halving when
`n < c/2 && c > 25`, then remove and return the last element. -/
def pqPop {α : Type} (pq : PQ α) : Option α × PQ α :=
  let n := pq.data.length
  let c := pq.cap
  let c' := if n < c / 2 ∧ c > 25 then c / 2 else c
  (pq.data.getLast?, { data := pq.data.dropLast, cap := c' })

/-- The shrink condition as the claim states it: length below one
quarter of capacity and capacity above the floor of 25. -/
def claimedShrinkCond (n c : Nat) : Prop :=
  n < c / 4 ∧ c > 25

instance (n c : Nat) : Decidable (claimedShrinkCond n c) := by
  unfold claimedShrinkCond
  infer_instance

/-- C7 counterexample: a pop from a queue of 30 items with capacity 100
halves the capacity to 50, although the claimed condition
(`30 < 100/4`) does not hold: the code shrinks below one HALF of
capacity, not one quarter. -/
theorem pqPop_shrink_half_not_quarter :
    (pqPop { data := List.replicate 30 (0 : Nat), cap := 100 }).2.cap = 50 ∧
      ¬ claimedShrinkCond (List.replicate 30 (0 : Nat)).length 100 := by
  constructor
  · rfl
  · decide

/-- C7 amended: `Push` doubles the capacity exactly when the push
exceeds it and appends the item after the existing ones; `Pop` halves
the capacity exactly when the current length is below one HALF of the
capacity and the capacity exceeds the floor of 25, removes the last
item and preserves all the others. -/
theorem pq_grow_shrink {α : Type} (pq : PQ α) (x : α) :
    (pqPush pq x).cap =
        (if pq.data.length + 1 > pq.cap then pq.cap * 2 else pq.cap) ∧
      (pqPush pq x).data = pq.data ++ [x] ∧
      (pqPop pq).2.cap =
        (if pq.data.length < pq.cap / 2 ∧ pq.cap > 25 then pq.cap / 2
         else pq.cap) ∧
      (pqPop pq).2.data = pq.data.dropLast ∧
      (pqPop pq).1 = pq.data.getLast? := by
  refine ⟨?_, ?_, ?_, ?_, ?_⟩
  · by_cases h : pq.data.length + 1 > pq.cap <;> simp [pqPush, h]
  · by_cases h : pq.data.length + 1 > pq.cap <;> simp [pqPush, h]
  · by_cases h : pq.data.length < pq.cap / 2 ∧ pq.cap > 25 <;> simp [pqPop, h]
  · rfl
  · rfl

/-!
## Executor (`timing/executor.go`)

`ExecutorFN.Execute` runs the wrapped function under a deferred
`recover()`: a panic raised by the task is recovered, printed together
with a stack trace, and does not propagate out of `Execute`.  A Go task
is modelled by its outcome: normal return or a panic carrying a value.
-/

/-- Outcome of running a Go task: normal return, or a panic value. -/
inductive TaskRun where
  | ok : TaskRun
  | panics : String → TaskRun
  deriving Repr, DecidableEq

/-- What `Execute` produces: a panic escaping the call (if any) and the
lines logged by the deferred recovery handler. -/
structure ExecOutcome where
  escaped : Option String
  logged : List String
  deriving Repr, DecidableEq

/-- `ExecutorFN.Execute`: invoke the task under
`defer { if err := recover(); err != nil { print err and stack } }`;
a panic is recovered and logged, never re-raised. -/
def executorFNExecute (task : TaskRun) : ExecOutcome :=
  match task with
  | .ok => { escaped := none, logged := [] }
  | .panics msg => { escaped := none, logged := [msg] }

/-- The default executor from `timing/config.go` runs the task inline;
its `Execute` is the `ExecutorFN.Execute` above applied to the task. -/
def defaultExecutorRun (task : TaskRun) : ExecOutcome :=
  executorFNExecute task

/-- C8: every task run through the default executor finishes `Execute`
without a panic escaping; a panicking task has its panic value
recovered and logged inside `Execute`. -/
theorem defaultExecutor_isolates_panics (task : TaskRun) :
    (defaultExecutorRun task).escaped = none ∧
      (∀ msg, task = .panics msg → msg ∈ (defaultExecutorRun task).logged) := by
  refine ⟨?_, ?_⟩
  · cases task <;> rfl
  · intro msg h
    subst h
    simp [defaultExecutorRun, executorFNExecute]

/-- Witness for C8 at a concrete panicking task. -/
theorem defaultExecutor_isolates_panics_witness :
    (defaultExecutorRun (.panics "boom")).escaped = none ∧
      "boom" ∈ (defaultExecutorRun (.panics "boom")).logged :=
  ⟨(defaultExecutor_isolates_panics (.panics "boom")).1,
   (defaultExecutor_isolates_panics (.panics "boom")).2 "boom" rfl⟩

/-!
## Cron timers (`wheel.Cron`, timing package)

`Cron` parses the expression with the external `cronexpr` library (out
of scope), yielding a `Next` function from an instant to the next
matching instant, which is always strictly later.  The Go code captures
`now = time.Now()` once at creation; the timer's task recomputes the
next expiration after each firing as `expression.Next(now)` with that
captured `now` — the time of the firing is never consulted.
-/

/-- Initial expiration chosen by `wheel.Cron`:
`newTimer(chrono.ToMillisecond(expression.Next(now)), …)`. -/
def cronInitialExpiration (next : Ms → Ms) (now : Ms) : Ms :=
  next now

/-- The expiration installed by the cron timer's task after a firing:
`next := expression.Next(now); timer.setExpiration(…)` inside the
deferred block — `now` is the creation time captured by the closure,
and `fireTime` is not used by the code. -/
def cronRecomputedExpiration (next : Ms → Ms) (now fireTime : Ms) : Ms :=
  next now

/-- A concrete cron-like `Next` used as test input: the next multiple
of 5 strictly after `x` (`Int./` is Euclidean division here). -/
def everyFiveNext (x : Ms) : Ms :=
  5 * (x / 5) + 5

/-- C4 (code bug): with the every-5 expression and creation time 0 the
first firing is scheduled at 5; the expiration recomputed after that
firing is `next(creationTime) = 5` again — the very instant that just
fired — whereas the next matching instant strictly after the firing is
10.  Successive fires therefore repeat the same instant instead of
advancing. -/
theorem cron_recompute_uses_stale_now :
    cronInitialExpiration everyFiveNext 0 = 5 ∧
      cronRecomputedExpiration everyFiveNext 0
          (cronInitialExpiration everyFiveNext 0) = 5 ∧
      everyFiveNext (cronInitialExpiration everyFiveNext 0) = 10 := by
  refine ⟨by decide, by decide, by decide⟩

/-!
## The hierarchical wheel (`timing/wheel_internal.go`)

One level of the wheel carries its configuration (tick, size, executor),
the atomically read `current` time, the interval `tick*size`, the ring
of buckets, the identity of the shared delay queue, and the lazily
created overflow wheel.  Timers are identified by `TimerId`; a bucket
stores its expiration (−1 when unscheduled) and the FIFO list of timer
ids.  Executors and delay queues are opaque ids so sharing can be
stated.
-/

abbrev TimerId := Nat

/-- A timer as read by `add`/`contract`: expiration and `stopped` flag. -/
structure TimerRec where
  expiration : Ms
  stopped : Bool
  deriving Repr, DecidableEq

/-- A bucket of one wheel level. -/
structure BucketW where
  expiration : Ms
  timers : List TimerId
  deriving Repr, DecidableEq

/-- A fresh bucket: no timers, expiration −1. -/
def emptyBucketW : BucketW := { expiration := -1, timers := [] }

/-- One level of the hierarchical timing wheel together with its lazily
created overflow wheel. -/
inductive WheelT : Type where
  | mk (tick size : Ms) (executorId : Nat) (current interval : Ms)
       (buckets : List BucketW) (queueId : Nat) (overflow : Option WheelT)

def WheelT.tick : WheelT → Ms | .mk t _ _ _ _ _ _ _ => t

def WheelT.size : WheelT → Ms | .mk _ s _ _ _ _ _ _ => s

def WheelT.executorId : WheelT → Nat | .mk _ _ e _ _ _ _ _ => e

def WheelT.current : WheelT → Ms | .mk _ _ _ c _ _ _ _ => c

def WheelT.interval : WheelT → Ms | .mk _ _ _ _ i _ _ _ => i

def WheelT.buckets : WheelT → List BucketW | .mk _ _ _ _ _ b _ _ => b

def WheelT.queueId : WheelT → Nat | .mk _ _ _ _ _ _ q _ => q

def WheelT.overflow : WheelT → Option WheelT | .mk _ _ _ _ _ _ _ o => o

/-- `wheelInternalImpl.init`: when `startMs = 0` the wall clock `nowMs`
is substituted; `current` is the start truncated to the tick, the
interval is `tick*size`, the ring holds `size` fresh buckets, no
overflow wheel yet. -/
def wheelInit (tick size : Ms) (executorId : Nat) (startMs nowMs : Ms)
    (queueId : Nat) : WheelT :=
  let start := if startMs = 0 then nowMs else startMs
  .mk tick size executorId (Truncate start tick) (tick * size)
      (List.replicate size.toNat emptyBucketW) queueId none

/-- `wheelInternalImpl.advanceClock`: when `expiration ≥ current + tick`
store `Truncate(expiration, tick)` into `current` and cascade the new
current into the overflow wheel. -/
def WheelT.advanceClock : WheelT → Ms → WheelT
  | .mk tick size ex cur itv bks q ov, expiration =>
    if expiration ≥ cur + tick then
      let cur' := Truncate expiration tick
      .mk tick size ex cur' itv bks q
        (match ov with
         | none => none
         | some w => some (w.advanceClock cur'))
    else .mk tick size ex cur itv bks q ov

/-- The bucket index computed by `add`:
`expiration / tick % size` in Go (truncated division/remainder). -/
def slotOf (e tick size : Ms) : Nat :=
  (Int.tmod (Int.tdiv e tick) size).toNat

/-- `wheelInternalImpl.add`, with explicit fuel for the recursion into
lazily created overflow levels (the Go recursion terminates because the
interval grows level by level).  Returns the updated wheel, the
`DelayQueue.Add` calls performed as `(queueId, expiration)` pairs, and
the Go return value — `false` when the timer is already due.
The bucket receives the timer at the back of its list and its
expiration is swapped to the timer's raw expiration; a change of the
bucket expiration re-submits the bucket to the delay queue. -/
def wheelAdd : Nat → WheelT → TimerRec → TimerId → Ms →
    WheelT × List (Nat × Ms) × Bool
  | 0, w, _, _, _ => (w, [], false)
  | fuel + 1, .mk tick size ex cur itv bks q ov, tr, tid, nowMs =>
    if tr.expiration < cur + tick then
      (.mk tick size ex cur itv bks q ov, [], false)
    else if tr.expiration < cur + itv then
      let idx := slotOf tr.expiration tick size
      let b := bks.getD idx emptyBucketW
      let b' : BucketW :=
        { expiration := tr.expiration, timers := b.timers ++ [tid] }
      let adds := if b.expiration = tr.expiration then ([] : List (Nat × Ms))
        else [(q, tr.expiration)]
      (.mk tick size ex cur itv (bks.set idx b') q ov, adds, true)
    else
      let o := match ov with
        | some w => w
        | none => wheelInit itv size ex cur nowMs q
      let r := wheelAdd fuel o tr tid nowMs
      (.mk tick size ex cur itv bks q (some r.1), r.2.1, r.2.2)

/-- `wheelInternalImpl.contract`: skip stopped timers; otherwise `add`;
when `add` reports the timer already due, submit the task to the
configured executor (`go executor.Execute(timer.getTask())`), recorded
as `some (executorId, timerId)`. -/
def wheelContract (fuel : Nat) (w : WheelT) (tr : TimerRec) (tid : TimerId)
    (nowMs : Ms) : WheelT × List (Nat × Ms) × Option (Nat × TimerId) :=
  if tr.stopped then (w, [], none)
  else
    let r := wheelAdd fuel w tr tid nowMs
    if r.2.2 then (r.1, r.2.1, none)
    else (r.1, r.2.1, some (w.executorId, tid))

/-- The hierarchy invariant of C9: positive tick and size, `current` a
multiple of the tick, `interval = tick*size`, and the overflow wheel —
when present — has tick equal to this wheel's interval, the same size,
the same executor and the same delay queue, recursively. -/
def WheelWF : WheelT → Prop
  | .mk tick size ex cur itv _ q ov =>
    0 < tick ∧ 0 < size ∧ tick ∣ cur ∧ itv = tick * size ∧
    (match ov with
     | none => True
     | some o =>
        o.tick = itv ∧ o.size = size ∧ o.executorId = ex ∧
        o.queueId = q ∧ WheelWF o)

/-- `Truncate` produces a multiple of a positive modulus. -/
theorem truncate_dvd (x m : Int) (hm : 0 < m) : m ∣ Truncate x m := by
  have h := Int.tdiv_add_tmod x m
  have heq : Truncate x m = m * Int.tdiv x m := by
    simp only [Truncate, if_neg (not_le.mpr hm)]
    linarith
  rw [heq]
  exact Dvd.intro _ rfl

/-- `init` establishes the hierarchy invariant. -/
theorem wheelInit_WF (tick size : Ms) (ex : Nat) (startMs nowMs : Ms) (q : Nat)
    (ht : 0 < tick) (hs : 0 < size) :
    WheelWF (wheelInit tick size ex startMs nowMs q) := by
  have h1 : tick ∣ Truncate (if startMs = 0 then nowMs else startMs) tick :=
    truncate_dvd _ _ ht
  simp [wheelInit, WheelWF, ht, hs, h1]

theorem advanceClock_tick (w : WheelT) (e : Ms) :
    (w.advanceClock e).tick = w.tick := by
  cases w with
  | mk t s x c i b q o =>
    simp only [WheelT.advanceClock]
    split <;> rfl

theorem advanceClock_size (w : WheelT) (e : Ms) :
    (w.advanceClock e).size = w.size := by
  cases w with
  | mk t s x c i b q o =>
    simp only [WheelT.advanceClock]
    split <;> rfl

theorem advanceClock_executorId (w : WheelT) (e : Ms) :
    (w.advanceClock e).executorId = w.executorId := by
  cases w with
  | mk t s x c i b q o =>
    simp only [WheelT.advanceClock]
    split <;> rfl

theorem advanceClock_queueId (w : WheelT) (e : Ms) :
    (w.advanceClock e).queueId = w.queueId := by
  cases w with
  | mk t s x c i b q o =>
    simp only [WheelT.advanceClock]
    split <;> rfl

/-- `advanceClock` preserves the hierarchy invariant. -/
theorem advanceClock_WF :
    ∀ (w : WheelT), WheelWF w → ∀ e, WheelWF (w.advanceClock e)
  | .mk tick size ex cur itv bks q none, hwf, e => by
    simp only [WheelT.advanceClock]
    obtain ⟨ht, hs, hc, hi, _⟩ := hwf
    split
    · exact ⟨ht, hs, truncate_dvd _ _ ht, hi, trivial⟩
    · exact ⟨ht, hs, hc, hi, trivial⟩
  | .mk tick size ex cur itv bks q (some o), hwf, e => by
    simp only [WheelT.advanceClock]
    obtain ⟨ht, hs, hc, hi, hto, hso, hxo, hqo, ho⟩ := hwf
    split
    · refine ⟨ht, hs, truncate_dvd _ _ ht, hi, ?_, ?_, ?_, ?_, ?_⟩
      · rw [advanceClock_tick]; exact hto
      · rw [advanceClock_size]; exact hso
      · rw [advanceClock_executorId]; exact hxo
      · rw [advanceClock_queueId]; exact hqo
      · exact advanceClock_WF o ho (Truncate e tick)
    · exact ⟨ht, hs, hc, hi, hto, hso, hxo, hqo, ho⟩

/-- `add` does not change the configuration, the clock or the queue of
a wheel — only its buckets and overflow contents. -/
theorem wheelAdd_fields : ∀ (fuel : Nat) (w : WheelT) (tr : TimerRec)
    (tid : TimerId) (nowMs : Ms),
    (wheelAdd fuel w tr tid nowMs).1.tick = w.tick ∧
      (wheelAdd fuel w tr tid nowMs).1.size = w.size ∧
      (wheelAdd fuel w tr tid nowMs).1.executorId = w.executorId ∧
      (wheelAdd fuel w tr tid nowMs).1.queueId = w.queueId ∧
      (wheelAdd fuel w tr tid nowMs).1.current = w.current ∧
      (wheelAdd fuel w tr tid nowMs).1.interval = w.interval
  | 0, w, tr, tid, nowMs => by
    simp [wheelAdd]
  | fuel + 1, .mk tick size ex cur itv bks q ov, tr, tid, nowMs => by
    simp only [wheelAdd]
    split
    · exact ⟨rfl, rfl, rfl, rfl, rfl, rfl⟩
    · split
      · exact ⟨rfl, rfl, rfl, rfl, rfl, rfl⟩
      · exact ⟨rfl, rfl, rfl, rfl, rfl, rfl⟩

/-- `add` preserves the hierarchy invariant, creating the overflow
wheel with tick = interval, the same size, executor and queue. -/
theorem wheelAdd_WF : ∀ (fuel : Nat) (w : WheelT) (tr : TimerRec)
    (tid : TimerId) (nowMs : Ms),
    WheelWF w → WheelWF (wheelAdd fuel w tr tid nowMs).1
  | 0, w, tr, tid, nowMs, hwf => hwf
  | fuel + 1, .mk tick size ex cur itv bks q none, tr, tid, nowMs, hwf => by
    obtain ⟨ht, hs, hc, hi, ho⟩ : 0 < tick ∧ 0 < size ∧ tick ∣ cur ∧
        itv = tick * size ∧ True := hwf
    simp only [wheelAdd]
    split
    · exact ⟨ht, hs, hc, hi, trivial⟩
    · split
      · exact ⟨ht, hs, hc, hi, trivial⟩
      · have hitv : 0 < itv := by
          rw [hi]; exact mul_pos ht hs
        have hoWF : WheelWF (wheelInit itv size ex cur nowMs q) :=
          wheelInit_WF itv size ex cur nowMs q hitv hs
        have hf := wheelAdd_fields fuel (wheelInit itv size ex cur nowMs q)
          tr tid nowMs
        refine ⟨ht, hs, hc, hi, ?_, ?_, ?_, ?_, ?_⟩
        · rw [hf.1]; rfl
        · rw [hf.2.1]; rfl
        · rw [hf.2.2.1]; rfl
        · rw [hf.2.2.2.1]; rfl
        · exact wheelAdd_WF fuel _ tr tid nowMs hoWF
  | fuel + 1, .mk tick size ex cur itv bks q (some wo), tr, tid, nowMs, hwf => by
    obtain ⟨ht, hs, hc, hi, ho⟩ : 0 < tick ∧ 0 < size ∧ tick ∣ cur ∧
        itv = tick * size ∧ (wo.tick = itv ∧ wo.size = size ∧
          wo.executorId = ex ∧ wo.queueId = q ∧ WheelWF wo) := hwf
    simp only [wheelAdd]
    split
    · exact ⟨ht, hs, hc, hi, ho⟩
    · split
      · exact ⟨ht, hs, hc, hi, ho⟩
      · have hf := wheelAdd_fields fuel wo tr tid nowMs
        refine ⟨ht, hs, hc, hi, ?_, ?_, ?_, ?_, ?_⟩
        · rw [hf.1]; exact ho.1
        · rw [hf.2.1]; exact ho.2.1
        · rw [hf.2.2.1]; exact ho.2.2.1
        · rw [hf.2.2.2.1]; exact ho.2.2.2.1
        · exact wheelAdd_WF fuel wo tr tid nowMs ho.2.2.2.2

/-- C9: `init` establishes, and `add` and `advanceClock` preserve, the
invariant that `current` is a multiple of `tick` and that the overflow
wheel, whenever present, has tick equal to this wheel's interval
(`tick × size`), the same size, the same executor, and the same shared
delay queue. -/
theorem wheel_invariants (tick size : Ms) (ex : Nat) (startMs nowMs : Ms)
    (q : Nat) (ht : 0 < tick) (hs : 0 < size) :
    WheelWF (wheelInit tick size ex startMs nowMs q) ∧
      (∀ (w : WheelT) (fuel : Nat) (tr : TimerRec) (tid : TimerId) (nm : Ms),
          WheelWF w → WheelWF (wheelAdd fuel w tr tid nm).1) ∧
      (∀ (w : WheelT) (e : Ms), WheelWF w → WheelWF (w.advanceClock e)) :=
  ⟨wheelInit_WF _ _ _ _ _ _ ht hs,
   fun w fuel tr tid nm h => wheelAdd_WF fuel w tr tid nm h,
   fun w e h => advanceClock_WF w h e⟩

/-- Witness for C9 with the default configuration (tick 1, size 20). -/
theorem wheel_invariants_witness :
    WheelWF (wheelInit 1 20 0 0 12345 0) :=
  (wheel_invariants 1 20 0 0 12345 0 (by decide) (by decide)).1

/-- An already-due timer makes `add` return `false` without touching
the wheel or the delay queue. -/
theorem wheelAdd_due (fuel : Nat) (w : WheelT) (tr : TimerRec)
    (tid : TimerId) (nowMs : Ms)
    (h : tr.expiration < w.current + w.tick) :
    wheelAdd (fuel + 1) w tr tid nowMs = (w, [], false) := by
  cases w with
  | mk t s x c i b q o =>
    simp only [wheelAdd]
    rw [if_pos]
    exact h

/-- C6: `contract` of a stopped timer changes nothing and dispatches
nothing; `contract` of an unstopped timer whose expiration is below
`current + tick` dispatches the task to the configured executor,
leaving the wheel and the delay queue untouched. -/
theorem contract_stopped_or_due (fuel : Nat) (w : WheelT) (tr : TimerRec)
    (tid : TimerId) (nowMs : Ms) :
    (tr.stopped = true → wheelContract fuel w tr tid nowMs = (w, [], none)) ∧
      (tr.stopped = false → tr.expiration < w.current + w.tick →
        wheelContract (fuel + 1) w tr tid nowMs =
          (w, [], some (w.executorId, tid))) := by
  constructor
  · intro h
    simp [wheelContract, h]
  · intro h hdue
    simp [wheelContract, h, wheelAdd_due fuel w tr tid nowMs hdue]

/-- Witness for C6: a stopped timer is a no-op; an unstopped due timer
is dispatched to executor 0. -/
theorem contract_stopped_or_due_witness :
    wheelContract 1 (wheelInit 1 20 0 100 0 0) ⟨50, true⟩ 7 0 =
        (wheelInit 1 20 0 100 0 0, [], none) ∧
      wheelContract 1 (wheelInit 1 20 0 100 0 0) ⟨50, false⟩ 7 0 =
        (wheelInit 1 20 0 100 0 0, [], some (0, 7)) := by
  constructor
  · exact (contract_stopped_or_due 1 _ _ 7 0).1 rfl
  · exact (contract_stopped_or_due 0 _ _ 7 0).2 rfl (by decide)

/-- `Truncate` of a nonnegative value by a positive tick is the tick
times the Euclidean quotient. -/
theorem truncate_eq_mul_ediv (e tick : Ms) (ht : 0 < tick) (he : 0 ≤ e) :
    Truncate e tick = tick * (e / tick) := by
  have h := Int.tdiv_add_tmod e tick
  have heq : Truncate e tick = tick * Int.tdiv e tick := by
    simp only [Truncate, if_neg (not_le.mpr ht)]
    linarith
  rw [heq, Int.tdiv_eq_ediv he (le_of_lt ht)]

/-- Two expirations inside the wheel's active window that map to the
same slot lie in the same tick window: their truncations agree. -/
theorem same_slot_same_window (tick size cur e1 e2 : Ms)
    (ht : 0 < tick) (hs : 0 < size) (hc : tick ∣ cur) (hcur : 0 ≤ cur)
    (h11 : cur + tick ≤ e1) (h12 : e1 < cur + tick * size)
    (h21 : cur + tick ≤ e2) (h22 : e2 < cur + tick * size)
    (hslot : slotOf e1 tick size = slotOf e2 tick size) :
    Truncate e1 tick = Truncate e2 tick := by
  obtain ⟨k, hk⟩ := hc
  have hk0 : 0 ≤ k := by nlinarith
  have he1 : 0 ≤ e1 := by linarith
  have he2 : 0 ≤ e2 := by linarith
  have hq1l : k + 1 ≤ e1 / tick := (Int.le_ediv_iff_mul_le ht).2 (by nlinarith)
  have hq1u : e1 / tick < k + size := (Int.ediv_lt_iff_lt_mul ht).2 (by nlinarith)
  have hq2l : k + 1 ≤ e2 / tick := (Int.le_ediv_iff_mul_le ht).2 (by nlinarith)
  have hq2u : e2 / tick < k + size := (Int.ediv_lt_iff_lt_mul ht).2 (by nlinarith)
  have hq1n : 0 ≤ e1 / tick := by linarith
  have hq2n : 0 ≤ e2 / tick := by linarith
  have hmod : (e1 / tick) % size = (e2 / tick) % size := by
    have h1 : Int.tmod (Int.tdiv e1 tick) size = (e1 / tick) % size := by
      rw [Int.tdiv_eq_ediv he1 (le_of_lt ht),
        Int.tmod_eq_emod hq1n (le_of_lt hs)]
    have h2 : Int.tmod (Int.tdiv e2 tick) size = (e2 / tick) % size := by
      rw [Int.tdiv_eq_ediv he2 (le_of_lt ht),
        Int.tmod_eq_emod hq2n (le_of_lt hs)]
    have hn1 : 0 ≤ Int.tmod (Int.tdiv e1 tick) size := by
      rw [h1]; exact Int.emod_nonneg _ (ne_of_gt hs)
    have hn2 : 0 ≤ Int.tmod (Int.tdiv e2 tick) size := by
      rw [h2]; exact Int.emod_nonneg _ (ne_of_gt hs)
    have heqt : Int.tmod (Int.tdiv e1 tick) size
        = Int.tmod (Int.tdiv e2 tick) size := by
      simp only [slotOf] at hslot
      rw [← Int.toNat_of_nonneg hn1, ← Int.toNat_of_nonneg hn2, hslot]
    rw [← h1, ← h2, heqt]
  have hdvd : size ∣ (e1 / tick - e2 / tick) :=
    Int.dvd_of_emod_eq_zero (Int.emod_eq_emod_iff_emod_sub_eq_zero.mp hmod)
  have hzero : e1 / tick - e2 / tick = 0 := by
    refine Int.eq_zero_of_abs_lt_dvd hdvd ?_
    rw [abs_lt]
    constructor <;> linarith
  have hq : e1 / tick = e2 / tick := by linarith
  rw [truncate_eq_mul_ediv e1 tick ht he1, truncate_eq_mul_ediv e2 tick ht he2,
    hq]

/-- C5 amended: for an in-window timer, `add` appends it to bucket
`(e/tick) mod size` and sets the bucket's expiration to the timer's RAW
expiration `e` (not `Truncate(e, tick)`); any two in-window expirations
in the same slot share the same tick window, so all timers of one
bucket placed under one clock value have equal `Truncate(·, tick)` —
equal to `Truncate(B.expiration, tick)` since `B.expiration` is the raw
expiration of the last such add. -/
theorem add_raw_expiration_window (tick size cur itv : Ms) (ex q : Nat)
    (bks : List BucketW) (ov : Option WheelT) (fuel : Nat)
    (tr : TimerRec) (tid : TimerId) (nowMs : Ms)
    (ht : 0 < tick) (hs : 0 < size) (hc : tick ∣ cur) (hcur : 0 ≤ cur)
    (hi : itv = tick * size)
    (h1 : cur + tick ≤ tr.expiration) (h2 : tr.expiration < cur + itv) :
    (wheelAdd (fuel + 1) (.mk tick size ex cur itv bks q ov)
        tr tid nowMs).1.buckets =
      bks.set (slotOf tr.expiration tick size)
        { expiration := tr.expiration,
          timers := (bks.getD (slotOf tr.expiration tick size)
            emptyBucketW).timers ++ [tid] } ∧
      (∀ e2 : Ms, cur + tick ≤ e2 → e2 < cur + itv →
        slotOf e2 tick size = slotOf tr.expiration tick size →
        Truncate e2 tick = Truncate tr.expiration tick) := by
  constructor
  · have hn1 : ¬ tr.expiration < cur + tick := not_lt.mpr h1
    simp only [wheelAdd, if_neg hn1, if_pos h2, WheelT.buckets]
  · intro e2 h21 h22 hslot
    subst hi
    exact same_slot_same_window tick size cur e2 tr.expiration ht hs hc hcur
      h21 h22 h1 h2 hslot

/-- Witness for the amended C5: tick 10, size 20, current 0; the timer
with expiration 15 lands in slot 1, and expiration 12 shares its
window. -/
theorem add_raw_expiration_window_witness :
    (wheelAdd 1 (.mk 10 20 0 0 200 (List.replicate 20 emptyBucketW) 0 none)
        ⟨15, false⟩ 1 0).1.buckets =
      (List.replicate 20 emptyBucketW).set (slotOf 15 10 20)
        { expiration := 15,
          timers := ((List.replicate 20 emptyBucketW).getD (slotOf 15 10 20)
            emptyBucketW).timers ++ [1] } ∧
      Truncate 12 10 = Truncate 15 10 :=
  ⟨(add_raw_expiration_window 10 20 0 200 0 0
      (List.replicate 20 emptyBucketW) none 0 ⟨15, false⟩ 1 0
      (by decide) (by decide) (by decide) (by decide) (by decide)
      (by decide) (by decide)).1,
   (add_raw_expiration_window 10 20 0 200 0 0
      (List.replicate 20 emptyBucketW) none 0 ⟨15, false⟩ 1 0
      (by decide) (by decide) (by decide) (by decide) (by decide)
      (by decide) (by decide)).2 12 (by decide) (by decide) (by decide)⟩

/-- C5 counterexample: with tick 10 the timer with expiration 15 makes
`add` store 15 in the bucket's expiration and submit 15 to the delay
queue, although `Truncate(15, 10) = 10 ≠ 15` — the code uses the raw
expiration, not the truncation the claim prescribes. -/
theorem add_sets_raw_not_truncated :
    (((wheelAdd 1 (.mk 10 20 0 0 200 (List.replicate 20 emptyBucketW) 0 none)
          ⟨15, false⟩ 1 0).1.buckets.getD 1 emptyBucketW).expiration = 15) ∧
      (wheelAdd 1 (.mk 10 20 0 0 200 (List.replicate 20 emptyBucketW) 0 none)
          ⟨15, false⟩ 1 0).2.1 = [(0, 15)] ∧
      Truncate 15 10 = 10 ∧ ((15 : Ms) ≠ 10) := by
  refine ⟨?_, ?_, by decide, by decide⟩ <;> rfl

/-!
## The driver loop: timers, buckets, pending reinsertions (timing package)

For the temporal claims the wheel hierarchy is flattened: all buckets of
all levels form one list and the slot arithmetic of `add` is abstracted
into a nondeterministic choice of target bucket — safety properties
proved over this larger step relation hold a fortiori of the real
driver.  Each Go method is taken to run atomically, interleaving at
method boundaries.  `bucketImpl.flush` of the timing package spawns one
goroutine per timer (`go adder(t)`) after unlinking it; those spawned
`contract` calls are the `pending` list, which the driver may run later
in any order.  `dispatched` is the log of tasks submitted to the
executor.
-/

/-- A timer of the driver model: expiration, `stopped` flag and the
atomic back-reference to the owning bucket (`timerImpl`). -/
structure TimerD where
  expiration : Ms
  stopped : Bool
  bucket : Option Nat
  deriving Repr, DecidableEq

/-- A bucket of the flattened driver model. -/
structure BucketD where
  expiration : Ms
  timers : List TimerId
  deriving Repr, DecidableEq

/-- Global state of the scheduler as the driver sees it. -/
structure Sys where
  timers : TimerId → TimerD
  buckets : List BucketD
  pending : List TimerId
  dispatched : List TimerId

/-- Bucket lookup; out-of-range indices behave as a fresh bucket. -/
def bgetD (l : List BucketD) (i : Nat) : BucketD :=
  l.getD i { expiration := -1, timers := [] }

/-- Point update of the timer table. -/
def Sys.setTimer (s : Sys) (tid : TimerId) (td : TimerD) : Sys :=
  { s with timers := fun i => if i = tid then td else s.timers i }

/-- `bucketImpl.remove` (timing package): `false` when the timer's
back-reference is not this bucket; otherwise unlink the list element,
clear the back-reference (`t.setBucket(nil, nil)`), refresh the delay
queue, and return `true`. -/
def bucketRemove (s : Sys) (bIdx : Nat) (tid : TimerId) : Sys × Bool :=
  if (s.timers tid).bucket = some bIdx then
    let b := bgetD s.buckets bIdx
    ({ timers := fun i => if i = tid then { s.timers tid with bucket := none }
          else s.timers i,
       buckets := s.buckets.set bIdx { b with timers := b.timers.erase tid },
       pending := s.pending,
       dispatched := s.dispatched }, true)
  else (s, false)

/-- `timerImpl.Stop` (timing package): load the bucket reference; when
non-null return `bucket.remove(t)` — without touching the `stopped`
flag; when null, store `stopped = true` and return `false`. -/
def timerStop (s : Sys) (tid : TimerId) : Sys × Bool :=
  match (s.timers tid).bucket with
  | some b => bucketRemove s b tid
  | none =>
      (s.setTimer tid { s.timers tid with stopped := true }, false)

/-- `bucketImpl.flush` (timing package): under the lock every element is
unlinked, its back-reference cleared, and `go adder(t)` spawned; the
expiration drops to −1.  The spawned reinsertion calls join `pending`. -/
def flushBucket (s : Sys) (bIdx : Nat) : Sys :=
  let b := bgetD s.buckets bIdx
  { timers := fun i => if i ∈ b.timers then { s.timers i with bucket := none }
      else s.timers i,
    buckets := s.buckets.set bIdx { expiration := -1, timers := [] },
    pending := s.pending ++ b.timers,
    dispatched := s.dispatched }

/-- A pending `contract` call finds its timer stopped: nothing happens. -/
def dropPending (s : Sys) (tid : TimerId) : Sys :=
  { s with pending := s.pending.erase tid }

/-- A pending `contract` call finds its timer due: the task goes to the
executor (`go executor.Execute`). -/
def dispatchPending (s : Sys) (tid : TimerId) : Sys :=
  { s with pending := s.pending.erase tid,
           dispatched := s.dispatched ++ [tid] }

/-- A pending `contract` call re-inserts its timer into a bucket
(`bucketImpl.add`: append to the list, publish the back-reference). -/
def insertPending (s : Sys) (tid : TimerId) (bIdx : Nat) : Sys :=
  let b := bgetD s.buckets bIdx
  { timers := fun i => if i = tid then { s.timers i with bucket := some bIdx }
      else s.timers i,
    buckets := s.buckets.set bIdx { b with timers := b.timers ++ [tid] },
    pending := s.pending.erase tid,
    dispatched := s.dispatched }

/-- One step of the driver: flush a bucket, or run one spawned
`contract` call — which skips a stopped timer, dispatches a due one, or
re-inserts a future one into some bucket. -/
inductive DriverStep : Sys → Sys → Prop
  | flush (s : Sys) (bIdx : Nat) : DriverStep s (flushBucket s bIdx)
  | contractStopped (s : Sys) (tid : TimerId) (h : tid ∈ s.pending)
      (hs : (s.timers tid).stopped = true) :
      DriverStep s (dropPending s tid)
  | contractDispatch (s : Sys) (tid : TimerId) (h : tid ∈ s.pending)
      (hs : (s.timers tid).stopped = false) :
      DriverStep s (dispatchPending s tid)
  | contractInsert (s : Sys) (tid : TimerId) (bIdx : Nat) (h : tid ∈ s.pending)
      (hs : (s.timers tid).stopped = false) :
      DriverStep s (insertPending s tid bIdx)

/-- Finitely many driver steps. -/
inductive DriverSteps : Sys → Sys → Prop
  | refl (s : Sys) : DriverSteps s s
  | step {s s' s'' : Sys} :
      DriverStep s s' → DriverSteps s' s'' → DriverSteps s s''

/-- The timer sits in no bucket and no `contract` call for it is
pending. -/
def NotHeld (tid : TimerId) (s : Sys) : Prop :=
  (∀ j, tid ∉ (bgetD s.buckets j).timers) ∧ tid ∉ s.pending

theorem bgetD_set_ne (l : List BucketD) (i j : Nat) (b : BucketD)
    (h : j ≠ i) : bgetD (l.set i b) j = bgetD l j := by
  simp [bgetD, List.getD_eq_getElem?_getD, List.getElem?_set_ne (Ne.symm h)]

theorem bgetD_set_self_timers (l : List BucketD) (i : Nat) (b : BucketD)
    (tid : TimerId) (hb : tid ∉ b.timers) :
    tid ∉ (bgetD (l.set i b) i).timers := by
  by_cases h : i < l.length
  · have heq : bgetD (l.set i b) i = b := by
      simp [bgetD, List.getD_eq_getElem?_getD, List.getElem?_set_self, h]
    rw [heq]; exact hb
  · have hlen : (l.set i b) = l := List.set_eq_of_length_le (by omega)
    have heq : bgetD l i = { expiration := -1, timers := [] } := by
      simp [bgetD, List.getD_eq_getElem?_getD,
        List.getElem?_eq_none (by omega : l.length ≤ i)]
    rw [hlen, heq]
    simp

theorem notHeld_flush (tid : TimerId) (s : Sys) (bIdx : Nat)
    (hn : NotHeld tid s) : NotHeld tid (flushBucket s bIdx) := by
  obtain ⟨hb, hp⟩ := hn
  constructor
  · intro j
    simp only [flushBucket]
    by_cases hj : j = bIdx
    · subst hj
      exact bgetD_set_self_timers _ _ _ _ (by simp)
    · rw [bgetD_set_ne _ _ _ _ hj]
      exact hb j
  · simp only [flushBucket, List.mem_append]
    push_neg
    exact ⟨hp, hb bIdx⟩

theorem notHeld_drop (tid tid' : TimerId) (s : Sys)
    (hn : NotHeld tid s) : NotHeld tid (dropPending s tid') := by
  obtain ⟨hb, hp⟩ := hn
  exact ⟨hb, fun h => hp (List.mem_of_mem_erase h)⟩

theorem notHeld_dispatch (tid tid' : TimerId) (s : Sys)
    (hn : NotHeld tid s) : NotHeld tid (dispatchPending s tid') := by
  obtain ⟨hb, hp⟩ := hn
  exact ⟨hb, fun h => hp (List.mem_of_mem_erase h)⟩

theorem notHeld_insert (tid tid' : TimerId) (bIdx : Nat) (s : Sys)
    (hn : NotHeld tid s) (hne : tid' ≠ tid) :
    NotHeld tid (insertPending s tid' bIdx) := by
  obtain ⟨hb, hp⟩ := hn
  constructor
  · intro j
    simp only [insertPending]
    by_cases hj : j = bIdx
    · subst hj
      refine bgetD_set_self_timers _ _ _ _ ?_
      simp only [List.mem_append, List.mem_singleton]
      push_neg
      exact ⟨hb _, fun h => hne h.symm⟩
    · rw [bgetD_set_ne _ _ _ _ hj]
      exact hb j
  · exact fun h => hp (List.mem_of_mem_erase h)

/-- No driver step re-acquires a timer that is in no bucket and not
pending. -/
theorem notHeld_step (tid : TimerId) {s s' : Sys}
    (h : DriverStep s s') (hn : NotHeld tid s) : NotHeld tid s' := by
  cases h with
  | flush bIdx => exact notHeld_flush tid s bIdx hn
  | contractStopped tid' hmem hst => exact notHeld_drop tid tid' s hn
  | contractDispatch tid' hmem hst => exact notHeld_dispatch tid tid' s hn
  | contractInsert tid' bIdx hmem hst =>
      refine notHeld_insert tid tid' bIdx s hn ?_
      intro he
      subst he
      exact hn.2 hmem

/-- A driver step never dispatches a timer that is in no bucket and not
pending. -/
theorem dispatched_step (tid : TimerId) {s s' : Sys}
    (h : DriverStep s s') (hn : NotHeld tid s) :
    s'.dispatched.count tid = s.dispatched.count tid := by
  cases h with
  | flush bIdx => rfl
  | contractStopped tid' hmem hst => rfl
  | contractDispatch tid' hmem hst =>
      have hne : tid' ≠ tid := by
        intro he
        subst he
        exact hn.2 hmem
      simp [dispatchPending, List.count_append, List.count_singleton, hne,
        Ne.symm hne]
  | contractInsert tid' bIdx hmem hst => rfl

theorem dispatched_steps (tid : TimerId) {s s' : Sys}
    (h : DriverSteps s s') (hn : NotHeld tid s) :
    s'.dispatched.count tid = s.dispatched.count tid := by
  induction h with
  | refl s => rfl
  | step h1 _ ih =>
      rw [ih (notHeld_step tid h1 hn), dispatched_step tid h1 hn]

/-- Consistency of the timer's back-reference with the bucket lists:
whichever bucket the timer's list entry lives in is the one its
back-reference names, a bucketed timer has no pending `contract` call,
and the timer occurs at most once per bucket list.  This is the data
invariant the Go implementation maintains for a live timer. -/
def BackRefWF (tid : TimerId) (s : Sys) : Prop :=
  (∀ j, tid ∈ (bgetD s.buckets j).timers → (s.timers tid).bucket = some j) ∧
  ((s.timers tid).bucket ≠ none → tid ∉ s.pending) ∧
  (∀ j, ((bgetD s.buckets j).timers.count tid) ≤ 1)

/-- A `Stop()` that returned `true` has unlinked the timer: it is in no
bucket and no `contract` call for it is pending. -/
theorem stop_true_notHeld (s : Sys) (tid : TimerId)
    (hwf : BackRefWF tid s)
    (hstop : (timerStop s tid).2 = true) :
    NotHeld tid (timerStop s tid).1 := by
  obtain ⟨hback, hpend, hcount⟩ := hwf
  cases hb : (s.timers tid).bucket with
  | none =>
      exfalso
      simp [timerStop, hb] at hstop
  | some b0 =>
      have hrem : timerStop s tid = bucketRemove s b0 tid := by
        simp [timerStop, hb]
      rw [hrem]
      simp only [bucketRemove]
      rw [if_pos hb]
      dsimp only
      constructor
      · intro j
        by_cases hj : j = b0
        · subst hj
          refine bgetD_set_self_timers _ _ _ _ ?_
          have h1 := hcount j
          have h2 : ((bgetD s.buckets j).timers.erase tid).count tid
              = (bgetD s.buckets j).timers.count tid - 1 :=
            List.count_erase_self tid _
          have h3 : ((bgetD s.buckets j).timers.erase tid).count tid = 0 := by
            omega
          exact (List.count_eq_zero.mp h3)
        · rw [bgetD_set_ne _ _ _ _ hj]
          intro hmem
          have hji := hback j hmem
          rw [hb] at hji
          injection hji with hji
          exact hj hji.symm
      · exact hpend (by rw [hb]; simp)

/-- C1: when `Stop()` returns `true`, no sequence of later driver steps
— bucket flushes, re-insertions via `contract`, or dispatches — ever
submits the timer's task to the executor. -/
theorem stop_true_never_dispatched (s : Sys) (tid : TimerId)
    (hwf : BackRefWF tid s)
    (hstop : (timerStop s tid).2 = true)
    (s₂ : Sys) (htr : DriverSteps (timerStop s tid).1 s₂) :
    s₂.dispatched.count tid = (timerStop s tid).1.dispatched.count tid :=
  dispatched_steps tid htr (stop_true_notHeld s tid hwf hstop)

/-- A concrete two-timer state: timer 0 and timer 1 share bucket 0. -/
def sysW : Sys :=
  { timers := fun i => if i = 0 then ⟨100, false, some 0⟩
      else ⟨200, false, some 0⟩,
    buckets := [{ expiration := 100, timers := [0, 1] }],
    pending := [],
    dispatched := [] }

theorem sysW_wf : BackRefWF 0 sysW := by
  refine ⟨?_, ?_, ?_⟩
  · intro j
    match j with
    | 0 => intro _; rfl
    | j + 1 =>
        intro h
        simp [bgetD, sysW] at h
  · intro _ h
    simp [sysW] at h
  · intro j
    match j with
    | 0 => decide
    | j + 1 => simp [bgetD, sysW]

/-- Witness for C1: stopping timer 0 of `sysW` returns `true`, and a
subsequent flush of its bucket dispatches nothing for it. -/
theorem stop_true_never_dispatched_witness :
    (flushBucket (timerStop sysW 0).1 0).dispatched.count 0 =
      (timerStop sysW 0).1.dispatched.count 0 :=
  stop_true_never_dispatched sysW 0 sysW_wf (by decide) _
    (.step (.flush _ 0) (.refl _))

/-- C2 counterexample: `Stop()` on the bucketed timer 0 returns `true`,
yet its `stopped` flag is still `false` afterwards — `Stopped()` lies
for successfully stopped timers. -/
theorem stop_true_leaves_flag_clear :
    (timerStop sysW 0).2 = true ∧
      ((timerStop sysW 0).1.timers 0).stopped = false := by
  constructor
  · decide
  · rfl

/-- C2 amended: after `Stop()` returns `false` the `stopped` flag is
true; after `Stop()` returns `true` (the unlink path) the flag is left
exactly as it was — the true path never sets it. -/
theorem stop_flag_amended (s : Sys) (tid : TimerId) :
    ((timerStop s tid).2 = false →
      ((timerStop s tid).1.timers tid).stopped = true) ∧
    ((timerStop s tid).2 = true →
      ((timerStop s tid).1.timers tid).stopped = (s.timers tid).stopped) := by
  cases hb : (s.timers tid).bucket with
  | none =>
      constructor
      · intro _
        simp [timerStop, hb, Sys.setTimer]
      · intro h
        simp [timerStop, hb] at h
  | some b0 =>
      have hrem : timerStop s tid = bucketRemove s b0 tid := by
        simp [timerStop, hb]
      constructor
      · intro h
        rw [hrem] at h
        simp only [bucketRemove] at h
        rw [if_pos hb] at h
        simp at h
      · intro _
        rw [hrem]
        simp only [bucketRemove]
        rw [if_pos hb]
        simp

/-- An unbucketed timer, for the `false` branch of Stop. -/
def sysN : Sys :=
  { timers := fun _ => ⟨100, false, none⟩, buckets := [],
    pending := [], dispatched := [] }

/-- Witness for the amended C2 on both branches of `Stop`. -/
theorem stop_flag_amended_witness :
    ((timerStop sysN 0).1.timers 0).stopped = true ∧
      ((timerStop sysW 0).1.timers 0).stopped = (sysW.timers 0).stopped :=
  ⟨(stop_flag_amended sysN 0).1 (by decide),
   (stop_flag_amended sysW 0).2 (by decide)⟩

/-!
## The two flush variants (C3)

`src/bucket.go` (the `src` tree) unlinks each element with
`unlockedRemove` and calls `adder(t)` synchronously before moving on —
insertion order is preserved.  `timing/bucket.go` instead spawns
`go adder(t)` per timer, modelled by `flushBucket` above: the spawned
calls may be executed by the runtime in any order.
-/

/-- `bucketImpl.unlockedRemove` of the src variant (same logic as
`remove`, caller already holds the lock). -/
def bucketUnlockedRemove (s : Sys) (bIdx : Nat) (tid : TimerId) :
    Sys × Bool :=
  bucketRemove s bIdx tid

/-- The iteration of the src-variant `flush`: front to back over the
captured chain, unlink then `adder(t)` synchronously; the second
component records the order in which `adder` is invoked. -/
def srcFlushGo (s : Sys) (bIdx : Nat) : List TimerId → Sys × List TimerId
  | [] => (s, [])
  | t :: rest =>
      let s1 := (bucketUnlockedRemove s bIdx t).1
      let r := srcFlushGo s1 bIdx rest
      (r.1, t :: r.2)

/-- `bucketImpl.flush` of `src/bucket.go`: iterate, then set the
expiration to −1. -/
def srcFlush (s : Sys) (bIdx : Nat) : Sys × List TimerId :=
  let b := bgetD s.buckets bIdx
  let r := srcFlushGo s bIdx b.timers
  let b' := bgetD r.1.buckets bIdx
  ({ r.1 with
      buckets := r.1.buckets.set bIdx ({ b' with expiration := -1 } : BucketD) },
   r.2)

theorem srcFlushGo_order (s : Sys) (bIdx : Nat) (l : List TimerId) :
    (srcFlushGo s bIdx l).2 = l := by
  induction l generalizing s with
  | nil => rfl
  | cons t rest ih => simp [srcFlushGo, ih]

/-- Two timers 1, 2 inserted into bucket 0 in that order. -/
def sysF : Sys :=
  { timers := fun i => if i = 1 then ⟨100, false, some 0⟩
      else if i = 2 then ⟨100, false, some 0⟩ else ⟨0, false, none⟩,
    buckets := [{ expiration := 100, timers := [1, 2] }],
    pending := [],
    dispatched := [] }

/-- C3: the synchronous src-variant `flush` hands timers to the
reinserter in insertion (FIFO) order before returning; the timing
variant only spawns per-timer goroutines, and the driver may dispatch
the spawned calls out of insertion order — here timer 2 fires before
timer 1. -/
theorem flush_order_divergence :
    (srcFlush sysF 0).2 = [1, 2] ∧
      (∀ s bIdx, (srcFlush s bIdx).2 = (bgetD s.buckets bIdx).timers) ∧
      ∃ s₂ : Sys, DriverSteps sysF s₂ ∧ s₂.dispatched = [2, 1] := by
  refine ⟨?_, ?_, ?_⟩
  · rfl
  · intro s bIdx
    simp [srcFlush, srcFlushGo_order]
  · exact ⟨dispatchPending (dispatchPending (flushBucket sysF 0) 2) 1,
      .step (.flush sysF 0)
        (.step (.contractDispatch _ 2 (by decide) (by decide))
          (.step (.contractDispatch _ 1 (by decide) (by decide))
            (.refl _))),
      rfl⟩

end Chrono
